import Mathlib

-- Verification of pynergy.py: a band-structure transition scanner.
-- The script has two parts: `eigenformat` (a text reformatter for raw
-- ABINIT eigen-energy files) and `transitions` (the scanner proper).
-- Energies are modelled as rationals; text as `List Char` / `String`.

namespace PyNergy

-- ## Reformatter (`eigenformat`, pynergy.py lines 25-32)

-- The record marker literal 'kpt#' that `eigenformat` replaces by a newline.
def marker : List Char := 'k' :: 'p' :: 't' :: '#' :: []

-- `.replace('\n', '')`: delete every newline of the raw text.
def stripNewlines (t : List Char) : List Char := t.filter (fun c => c ≠ '\n')

-- `.replace('kpt#', '\n')`: replace each (non-overlapping, left-to-right)
-- occurrence of the marker by a single newline.  The marker has no
-- self-overlap, so this is every occurrence.
def replaceMarker : List Char → List Char
  | 'k' :: 'p' :: 't' :: '#' :: t => '\n' :: replaceMarker t
  | c :: t => c :: replaceMarker t
  | [] => []

-- Number of marker occurrences in a text, counted exactly as
-- `str.replace` consumes them.
def countMarker : List Char → Nat
  | 'k' :: 'p' :: 't' :: '#' :: t => countMarker t + 1
  | _ :: t => countMarker t
  | [] => 0

-- Python `str.split('\n')`: always returns one more chunk than there are
-- newlines; splitting the empty string gives one empty chunk.
def splitNl : List Char → List (List Char)
  | [] => [[]]
  | c :: t =>
    if c = '\n' then [] :: splitNl t
    else
      match splitNl t with
      | [] => [c] :: []
      | h :: r => (c :: h) :: r

-- Python `'\n'.join`.
def joinNl : List (List Char) → List Char
  | [] => []
  | [l] => l
  | l :: ls => l ++ '\n' :: joinNl ls

-- The suffix of `l` strictly after its last ')' (all of `l` if none).
def afterLastParen (l : List Char) : List Char :=
  (l.reverse.takeWhile (fun c => c ≠ ')')).reverse

-- One newline-free segment under `re.sub(r',.*\)', "", text)`.  The regex
-- scans left to right; a match must start at a comma that is followed by a
-- ')' in the same segment ('.' never crosses a newline), and '.*' is
-- greedy, so the single match runs from the first such comma to the last
-- ')' of the segment.  The replacement is empty and the remainder holds no
-- further ')', hence no further match.
def lineStrip : List Char → List Char
  | [] => []
  | c :: t =>
    if c = ',' then (if ')' ∈ t then afterLastParen t else c :: t)
    else c :: lineStrip t

-- `re.sub(r',.*\)', "", text)` on the whole text: since '.' does not match
-- a newline, the substitution acts independently on each newline-separated
-- segment.
def stripAnnot (t : List Char) : List Char := joinNl ((splitNl t).map lineStrip)

-- The list of output lines of `eigenformat`: collapse newlines, cut one
-- line per marker, strip the comma-parenthesis spans, drop the first
-- (preamble) line.
def eigenLines (raw : List Char) : List (List Char) :=
  (splitNl (stripAnnot (replaceMarker (stripNewlines raw)))).drop 1

-- The full text written by `eigenformat` to its output file
-- ('\n'.join of the remaining lines).
def eigenformat (raw : List Char) : List Char := joinNl (eigenLines raw)

-- A segment still carries an annotation if some comma is followed
-- (later in the segment) by a closing parenthesis.
def hasCommaParen (l : List Char) : Bool :=
  (l.dropWhile (fun c => c ≠ ',')).contains ')'

-- ## Scanner (`transitions`, pynergy.py lines 34-62)

abbrev Table := List (List ℚ)

-- Module-level Gnuplot offset (pynergy.py line 23).
def OFFSET : ℚ := 0

-- `kpts = len(eigen)`.
def kptsOf (eigen : Table) : Nat := eigen.length

-- `bands = len(eigen[0])`.
def bandsOf (eigen : Table) : Nat := (eigen.getD 0 []).length

-- `eigen[k, j]`; every access in the scan is in range for a rectangular
-- table, the default is irrelevant there.
def cell (eigen : Table) (k j : Nat) : ℚ := (eigen.getD k []).getD j 0

-- `diff = abs(orig - targ)` for the candidate (k, s, f).
def diffAt (eigen : Table) (k s f : Nat) : ℚ := |cell eigen k s - cell eigen k f|

-- The band pairs enumerated for one k-point:
-- `for start in range(1, bands): for finish in range(start + 1, bands)`.
def rowCandidates (bands : Nat) : List (Nat × Nat) :=
  (List.range' 1 (bands - 1)).flatMap
    (fun s => (List.range' (s + 1) (bands - (s + 1))).map (fun t => (s, t)))

-- All candidates in loop order: `for kpt in range(0, kpts)` outermost.
def scanCandidates (kpts bands : Nat) : List (Nat × Nat × Nat) :=
  (List.range kpts).flatMap
    (fun kpt => (rowCandidates bands).map (fun p => (kpt, p.1, p.2)))

-- The tolerance test `args.energy - args.delta <= diff <= args.energy + args.delta`.
def matchTest (energy delta diff : ℚ) : Bool :=
  decide (energy - delta ≤ diff) && decide (diff ≤ energy + delta)

-- The candidates that pass the test, in loop order: one per written line.
def matchTriples (eigen : Table) (energy delta : ℚ) : List (Nat × Nat × Nat) :=
  (scanCandidates (kptsOf eigen) (bandsOf eigen)).filter
    (fun c => matchTest energy delta (diffAt eigen c.1 c.2.1 c.2.2))

-- ## Rendering (pynergy.py lines 52-60)

-- Round to the nearest integer, ties to the even integer, as IEEE-style
-- fixed-point printing does.
def roundHalfEven (x : ℚ) : ℤ :=
  if x - ⌊x⌋ > 1 / 2 then ⌊x⌋ + 1
  else if x - ⌊x⌋ < 1 / 2 then ⌊x⌋
  else if ⌊x⌋ % 2 = 0 then ⌊x⌋ else ⌊x⌋ + 1

def dashStr : String := "-"
def dotStr : String := "."

-- Left-pad with '0' to the given width (Python format fill `0>`).
def padZero (w : Nat) (s : String) : String :=
  String.mk (List.replicate (w - s.length) '0' ++ s.data)

-- Python `'{:.pf}'.format(x)` for x >= 0: the decimally rounded value with
-- exactly p digits after the point (p > 0 in every use below).
def formatFixedNN (p : Nat) (x : ℚ) : String :=
  Nat.repr ((roundHalfEven (x * 10 ^ p)).toNat / 10 ^ p) ++ dotStr ++
    padZero p (Nat.repr ((roundHalfEven (x * 10 ^ p)).toNat % 10 ^ p))

-- Python `'{:.pf}'.format(x)`, any sign.
def formatFixed (p : Nat) (x : ℚ) : String :=
  if x < 0 then dashStr ++ formatFixedNN p (-x) else formatFixedNN p x

def gpFrom : String := "set arrow from "
def gpTo : String := " to "
def commaStr : String := ","
def nlStr : String := "\n"
def sepEV : String := " eV | k-point: "
def sepBands : String := " | bands: "
def sepArrow : String := " -> "

-- `'set arrow from {0},{1:.5f} to {0},{2:.5f}\n'.format(kpt + 1, orig - OFFSET, targ - OFFSET)`.
def gnuplotLine (kpt : Nat) (orig targ : ℚ) : String :=
  gpFrom ++ Nat.repr (kpt + 1) ++ commaStr ++ formatFixed 5 (orig - OFFSET) ++
    gpTo ++ Nat.repr (kpt + 1) ++ commaStr ++ formatFixed 5 (targ - OFFSET) ++ nlStr

-- `'{0:0>9.6f} eV | k-point: {1:0>3d} | bands: {2:0>2d} -> {3:0>2d}\n'
--    .format(diff, kpt + 1, start, finish)`.
def descLine (diff : ℚ) (kpt s f : Nat) : String :=
  padZero 9 (formatFixed 6 diff) ++ sepEV ++ padZero 3 (Nat.repr (kpt + 1)) ++
    sepBands ++ padZero 2 (Nat.repr s) ++ sepArrow ++ padZero 2 (Nat.repr f) ++ nlStr

-- The line written for one matching candidate, by rendering mode.
def renderLine (gnuplot : Bool) (eigen : Table) (c : Nat × Nat × Nat) : String :=
  if gnuplot then gnuplotLine c.1 (cell eigen c.1 c.2.1) (cell eigen c.1 c.2.2)
  else descLine (diffAt eigen c.1 c.2.1 c.2.2) c.1 c.2.1 c.2.2

-- The full content written to the scanner's output file.
def transitionsOutput (eigen : Table) (energy delta : ℚ) (gnuplot : Bool) : String :=
  String.join ((matchTriples eigen energy delta).map (renderLine gnuplot eigen))

-- ## Loading and the whole run (pynergy.py lines 39-43)

-- Every row has the column count of row 0.
def rectangular (rows : Table) : Prop :=
  ∀ r ∈ rows, r.length = bandsOf rows

instance (rows : Table) : Decidable (rectangular rows) := by
  unfold rectangular; infer_instance

-- `np.loadtxt`: parses the rows and fails unless they form a rectangular
-- 2-D table.  A table with a single row or a single column is loaded as a
-- squeezed 1-D array, on which `len(eigen[0])` then fails; either way the
-- scan never proceeds, so loading succeeds only for a rectangular table
-- with at least 2 rows and 2 columns.
def loadTable (rows : Table) : Option Table :=
  if 2 ≤ rows.length ∧ 2 ≤ bandsOf rows ∧ rectangular rows then some rows else none

-- One `transitions` call, at the level of observable file effects:
-- `none` means the run failed before `open(outputfile, 'w')`, so the
-- output file was neither created nor modified; `some s` means the output
-- file was written with content `s`.
def transitionsRun (rows : Table) (energy delta : ℚ) (gnuplot : Bool) : Option String :=
  match loadTable rows with
  | none => none
  | some eigen => some (transitionsOutput eigen energy delta gnuplot)

end PyNergy

namespace PyNergy

-- ## Scanner lemmas

lemma mem_rowCandidates {bands s f : Nat} :
    (s, f) ∈ rowCandidates bands ↔ 1 ≤ s ∧ s < f ∧ f < bands := by
  unfold rowCandidates
  simp only [List.mem_flatMap, List.mem_map, List.mem_range'_1]
  constructor
  · rintro ⟨a, ha, b, hb, hab⟩
    rw [Prod.mk.injEq] at hab
    obtain ⟨rfl, rfl⟩ := hab
    omega
  · rintro ⟨h1, h2, h3⟩
    exact ⟨s, by omega, f, by omega, rfl⟩

lemma mem_scanCandidates {kpts bands k s f : Nat} :
    (k, s, f) ∈ scanCandidates kpts bands ↔ k < kpts ∧ 1 ≤ s ∧ s < f ∧ f < bands := by
  unfold scanCandidates
  simp only [List.mem_flatMap, List.mem_map, List.mem_range]
  constructor
  · rintro ⟨a, ha, p, hp, hpe⟩
    cases hpe
    exact ⟨ha, mem_rowCandidates.mp hp⟩
  · rintro ⟨h1, h2⟩
    exact ⟨k, h1, (s, f), mem_rowCandidates.mpr h2, rfl⟩

lemma mem_matchTriples {eigen : Table} {energy delta : ℚ} {k s f : Nat} :
    (k, s, f) ∈ matchTriples eigen energy delta ↔
      ((k, s, f) ∈ scanCandidates (kptsOf eigen) (bandsOf eigen) ∧
        energy - delta ≤ diffAt eigen k s f ∧ diffAt eigen k s f ≤ energy + delta) := by
  unfold matchTriples
  simp [List.mem_filter, matchTest, and_assoc]

lemma sum_map_succ_shift (l : List Nat) (f g : Nat → Nat)
    (h : ∀ i ∈ l, f i = g i + 1) :
    (l.map f).sum = (l.map g).sum + l.length := by
  induction l with
  | nil => rfl
  | cons a t ih =>
    have ha := h a (List.mem_cons_self a t)
    have ht := ih (fun i hi => h i (List.mem_cons_of_mem a hi))
    simp only [List.map_cons, List.sum_cons, List.length_cons, ha, ht]
    omega

lemma sum_range_rev_sub (n : Nat) :
    ((List.range n).map (fun i => n - (i + 1))).sum = n.choose 2 := by
  induction n with
  | zero => rfl
  | succ m ih =>
    rw [List.range_succ, List.map_append, List.sum_append]
    have hshift : ((List.range m).map (fun i => m + 1 - (i + 1))).sum =
        ((List.range m).map (fun i => m - (i + 1))).sum + m := by
      have h := sum_map_succ_shift (List.range m)
        (fun i => m + 1 - (i + 1)) (fun i => m - (i + 1))
        (fun i hi => by
          rw [List.mem_range] at hi
          show m + 1 - (i + 1) = m - (i + 1) + 1
          omega)
      simpa using h
    have hch : (m + 1).choose 2 = m.choose 2 + m := by
      rw [Nat.choose_succ_succ]
      simp [Nat.choose_one_right, Nat.add_comm]
    simp only [List.map_cons, List.map_nil, List.sum_cons, List.sum_nil, hshift, ih, hch]
    omega

lemma length_rowCandidates (bands : Nat) :
    (rowCandidates bands).length = (bands - 1).choose 2 := by
  unfold rowCandidates
  rw [List.length_flatMap]
  have h1 : (List.map (List.length ∘ fun s =>
      (List.range' (s + 1) (bands - (s + 1))).map (fun t => (s, t))) (List.range' 1 (bands - 1))) =
      (List.range' 1 (bands - 1)).map (fun s => bands - (s + 1)) := by
    apply List.map_congr_left
    intro a _
    simp [List.length_range']
  rw [h1, List.range'_eq_map_range, List.map_map]
  have h2 : ((List.range (bands - 1)).map ((fun s => bands - (s + 1)) ∘ (fun x => 1 + x))) =
      (List.range (bands - 1)).map (fun i => (bands - 1) - (i + 1)) := by
    apply List.map_congr_left
    intro a _
    simp only [Function.comp_apply]
    omega
  rw [h2, sum_range_rev_sub]

lemma length_scanCandidates (kpts bands : Nat) :
    (scanCandidates kpts bands).length = kpts * (bands - 1).choose 2 := by
  unfold scanCandidates
  rw [List.length_flatMap]
  have h1 : (List.map (List.length ∘ fun kpt => (rowCandidates bands).map (fun p => (kpt, p.1, p.2)))
      (List.range kpts)) = (List.range kpts).map (fun _ => (bands - 1).choose 2) := by
    apply List.map_congr_left
    intro a _
    simp [length_rowCandidates]
  rw [h1]
  simp [List.map_const', Nat.mul_comm]

end PyNergy

namespace PyNergy

-- Strict lexicographic order on (kpt, start, finish).
def tripleLt (a b : Nat × Nat × Nat) : Prop :=
  a.1 < b.1 ∨ (a.1 = b.1 ∧ (a.2.1 < b.2.1 ∨ (a.2.1 = b.2.1 ∧ a.2.2 < b.2.2)))

lemma pairwise_flatMap_of {α β : Type} {R : α → α → Prop} {S : β → β → Prop}
    {l : List α} {f : α → List β}
    (hl : l.Pairwise R) (hf : ∀ a ∈ l, (f a).Pairwise S)
    (hRS : ∀ a ∈ l, ∀ b ∈ l, R a b → ∀ x ∈ f a, ∀ y ∈ f b, S x y) :
    (l.flatMap f).Pairwise S := by
  induction l with
  | nil => simp
  | cons a t ih =>
    rw [List.flatMap_cons, List.pairwise_append]
    rw [List.pairwise_cons] at hl
    refine ⟨hf a (by simp), ?_, ?_⟩
    · exact ih hl.2 (fun b hb => hf b (by simp [hb]))
        (fun b hb b' hb' => hRS b (by simp [hb]) b' (by simp [hb']))
    · intro x hx y hy
      rw [List.mem_flatMap] at hy
      obtain ⟨b, hb, hyb⟩ := hy
      exact hRS a (by simp) b (by simp [hb]) (hl.1 b hb) x hx y hyb

lemma pairwise_lt_range' (s n : Nat) : (List.range' s n).Pairwise (· < ·) := by
  rw [List.range'_eq_map_range, List.pairwise_map]
  exact (List.pairwise_lt_range n).imp (by omega)

lemma pairwise_rowCandidates (bands : Nat) :
    (rowCandidates bands).Pairwise
      (fun p q => p.1 < q.1 ∨ (p.1 = q.1 ∧ p.2 < q.2)) := by
  unfold rowCandidates
  apply pairwise_flatMap_of (pairwise_lt_range' 1 (bands - 1))
  · intro a _
    rw [List.pairwise_map]
    exact (pairwise_lt_range' (a + 1) (bands - (a + 1))).imp (fun h => by simp [h])
  · intro a _ b _ hab x hx y hy
    rw [List.mem_map] at hx hy
    obtain ⟨xa, _, rfl⟩ := hx
    obtain ⟨ya, _, rfl⟩ := hy
    exact Or.inl hab

lemma pairwise_scanCandidates (kpts bands : Nat) :
    (scanCandidates kpts bands).Pairwise tripleLt := by
  unfold scanCandidates
  apply pairwise_flatMap_of (List.pairwise_lt_range kpts)
  · intro a _
    rw [List.pairwise_map]
    exact (pairwise_rowCandidates bands).imp
      (fun h => Or.inr ⟨rfl, h⟩)
  · intro a _ b _ hab x hx y hy
    rw [List.mem_map] at hx hy
    obtain ⟨xa, _, rfl⟩ := hx
    obtain ⟨ya, _, rfl⟩ := hy
    exact Or.inl hab

-- ## C1 .. C4

/-- C1: for a table with K rows and B columns the scan evaluates exactly the
candidates (kpt, start, finish) with kpt <= K-1 and 1 <= start < finish <= B-1
(C(B-1, 2) of them per row, band 0 never an origin), and a candidate is
emitted as a match if and only if target - delta <= diff <= target + delta
for its difference. -/
theorem scanner_candidates_window (eigen : Table) (energy delta : ℚ) :
    ((rowCandidates (bandsOf eigen)).length = (bandsOf eigen - 1).choose 2) ∧
    (∀ k s f : Nat,
      (k, s, f) ∈ scanCandidates (kptsOf eigen) (bandsOf eigen) ↔
        k ≤ kptsOf eigen - 1 ∧ 1 ≤ s ∧ s < f ∧ f ≤ bandsOf eigen - 1) ∧
    (∀ k s f : Nat,
      (k, s, f) ∈ matchTriples eigen energy delta ↔
        ((k, s, f) ∈ scanCandidates (kptsOf eigen) (bandsOf eigen) ∧
          energy - delta ≤ diffAt eigen k s f ∧ diffAt eigen k s f ≤ energy + delta)) := by
  refine ⟨length_rowCandidates _, ?_, ?_⟩
  · intro k s f
    rw [mem_scanCandidates]
    rcases eigen with _ | ⟨r, t⟩
    · have h0 : kptsOf ([] : Table) = 0 := rfl
      have h1 : bandsOf ([] : Table) = 0 := rfl
      rw [h0, h1]
      omega
    · have h1 : 1 ≤ kptsOf (r :: t) := Nat.succ_le_succ (Nat.zero_le _)
      omega
  · intro k s f
    exact mem_matchTriples

/-- C2: the match records appear in strictly increasing lexicographic order
of (kpt, start, finish) — k-point major, origin band second, target band
innermost — and the output stream is exactly the rendering of that ordered
list of matches. -/
theorem scanner_output_sorted (eigen : Table) (energy delta : ℚ) (gnuplot : Bool) :
    (matchTriples eigen energy delta).Pairwise tripleLt ∧
    transitionsOutput eigen energy delta gnuplot =
      String.join ((matchTriples eigen energy delta).map (renderLine gnuplot eigen)) :=
  ⟨List.Pairwise.sublist (List.filter_sublist _) (pairwise_scanCandidates _ _), rfl⟩

/-- C3: the acceptance interval is closed at both ends: a difference equal to
target - delta or to target + delta passes the test; and on the table
[[0, 1, 5/2]] with target 3/2 and delta 0 the pair (start 1, finish 2) with
difference 3/2 is still emitted. -/
theorem scanner_closed_interval :
    (∀ energy delta : ℚ, 0 ≤ delta →
      matchTest energy delta (energy - delta) = true ∧
      matchTest energy delta (energy + delta) = true) ∧
    matchTriples [[0, 1, 5/2]] (3/2) 0 = [(0, 1, 2)] := by
  constructor
  · intro energy delta h
    constructor
    · simp only [matchTest, Bool.and_eq_true, decide_eq_true_eq]
      exact ⟨le_refl _, by linarith⟩
    · simp only [matchTest, Bool.and_eq_true, decide_eq_true_eq]
      exact ⟨by linarith, le_refl _⟩
  · have hc : scanCandidates (kptsOf [[0, 1, 5/2]]) (bandsOf [[0, 1, 5/2]]) = [(0, 1, 2)] := rfl
    have habs : |(1 : ℚ) - 5/2| = 3/2 := by norm_num [abs_of_nonpos]
    rw [matchTriples, hc]
    simp only [List.filter, diffAt, cell, List.getD, List.get?, Option.getD_some, matchTest]
    simp only [habs]
    norm_num

/-- C3 witness at energy 3/2, delta 1/2. -/
theorem scanner_closed_interval_witness :
    matchTest (3/2) (1/2) ((3/2) - (1/2)) = true ∧
    matchTest (3/2) (1/2) ((3/2) + (1/2)) = true :=
  scanner_closed_interval.1 (3/2) (1/2) (by norm_num)

/-- C4: for a fixed table and target, enlarging delta only adds matches:
with 0 <= delta1 <= delta2, the delta1 match list is a sublist of the delta2
match list (so every match emitted with delta1 is also emitted with delta2)
and the match count is monotonically non-decreasing. -/
theorem scanner_delta_monotone (eigen : Table) (energy d1 d2 : ℚ)
    (_h1 : 0 ≤ d1) (h2 : d1 ≤ d2) :
    ((matchTriples eigen energy d1).Sublist (matchTriples eigen energy d2)) ∧
    (matchTriples eigen energy d1).length ≤ (matchTriples eigen energy d2).length := by
  have hs : (matchTriples eigen energy d1).Sublist (matchTriples eigen energy d2) := by
    unfold matchTriples
    apply List.monotone_filter_right
    intro c hc
    simp only [matchTest, Bool.and_eq_true, decide_eq_true_eq] at hc ⊢
    constructor <;> linarith [hc.1, hc.2]
  exact ⟨hs, hs.length_le⟩

/-- C4 witness on the table [[0, 1, 5/2]] with target 3/2, deltas 0 and 1. -/
theorem scanner_delta_monotone_witness :
    ((matchTriples [[0, 1, 5/2]] (3/2) 0).Sublist (matchTriples [[0, 1, 5/2]] (3/2) 1)) ∧
    (matchTriples [[0, 1, 5/2]] (3/2) 0).length ≤ (matchTriples [[0, 1, 5/2]] (3/2) 1).length :=
  scanner_delta_monotone [[0, 1, 5/2]] (3/2) 0 1 (by norm_num) (by norm_num)

end PyNergy

namespace PyNergy

-- ## C5, C6, C9, C10

/-- C5: a malformed (non-rectangular) table is a fatal load error: `loadTable`
fails, and the run produces no output at all — in particular the output file
is never opened or modified (`transitionsRun` reaches `none` before any write
effect exists). -/
theorem scanner_load_error_no_output (rows : Table) (energy delta : ℚ) (gnuplot : Bool)
    (h : ¬ rectangular rows) :
    loadTable rows = none ∧ transitionsRun rows energy delta gnuplot = none := by
  have hl : loadTable rows = none := by
    unfold loadTable
    rw [if_neg]
    tauto
  refine ⟨hl, ?_⟩
  unfold transitionsRun
  rw [hl]

/-- C5 witness: the ragged table [[1, 2], [3]]. -/
theorem scanner_load_error_no_output_witness :
    loadTable [[1, 2], [3]] = none ∧ transitionsRun [[1, 2], [3]] 1 0 false = none :=
  scanner_load_error_no_output [[1, 2], [3]] 1 0 false (by decide)

def renderedLineC6 : String := "01.234567 eV | k-point: 001 | bands: 01 -> 02\n"
def claimedLineC6 : String := "001.234567 eV | k-point: 001 | bands: 01 -> 02\n"

lemma descLine_eval_c6 : descLine (1234567/1000000) 0 1 2 = renderedLineC6 := by
  have h : ((1234567/1000000 : ℚ) * 10 ^ 6) = ((1234567 : ℤ) : ℚ) := by norm_num
  have h2 : roundHalfEven ((1234567/1000000 : ℚ) * 10 ^ 6) = 1234567 := by
    rw [h]
    unfold roundHalfEven
    norm_num
  have h3 : ¬ ((1234567/1000000 : ℚ) < 0) := by norm_num
  rw [descLine, formatFixed, if_neg h3, formatFixedNN, h2]
  decide

/-- C6 counterexample: the match with diff 1.234567, kpt 0, start 1, finish 2
is NOT rendered as the claimed literal `001.234567 eV | k-point: 001 |
bands: 01 -> 02`: the `0>9.6f` field of 1.234567 is the 9-character
`01.234567`, not the 10-character `001.234567`. -/
theorem descriptive_render_cex : descLine (1234567/1000000) 0 1 2 ≠ claimedLineC6 := by
  rw [descLine_eval_c6]
  decide

/-- C6 amended: that match is rendered as the literal line
`01.234567 eV | k-point: 001 | bands: 01 -> 02` — the difference as a
zero-padded 9-character field with 6 decimals, the 1-based k-point index
zero-padded to 3 digits, the two displayed band indices zero-padded to
2 digits, with the fixed separators. -/
theorem descriptive_render : descLine (1234567/1000000) 0 1 2 = renderedLineC6 :=
  descLine_eval_c6

lemma rectangular_iff_getD (t : Table) :
    rectangular t ↔ ∀ k, k < t.length → (t.getD k []).length = bandsOf t := by
  constructor
  · intro h k hk
    rw [List.getD_eq_getElem _ _ hk]
    exact h _ (List.getElem_mem hk)
  · intro h r hr
    rw [List.mem_iff_getElem] at hr
    obtain ⟨n, hn, rfl⟩ := hr
    have hh := h n hn
    rwa [List.getD_eq_getElem _ _ hn] at hh

/-- C9: the scanner's observable behaviour is independent of column 0: two
tables of identical shape whose cells agree on every column j >= 1 produce
identical runs (same load outcome and byte-identical output) for any target,
delta and rendering mode — column 0 is never read. -/
theorem scanner_ignores_column_zero (t1 t2 : Table) (energy delta : ℚ) (gnuplot : Bool)
    (hlen : t1.length = t2.length)
    (hrow : ∀ k, (t1.getD k []).length = (t2.getD k []).length)
    (hcell : ∀ k j, 1 ≤ j → cell t1 k j = cell t2 k j) :
    transitionsRun t1 energy delta gnuplot = transitionsRun t2 energy delta gnuplot := by
  have hbands : bandsOf t1 = bandsOf t2 := hrow 0
  have hkpts : kptsOf t1 = kptsOf t2 := hlen
  have hrect : rectangular t1 ↔ rectangular t2 := by
    rw [rectangular_iff_getD, rectangular_iff_getD, ← hbands, ← hlen]
    constructor <;> intro h k hk
    · rw [← hrow k]
      exact h k hk
    · rw [hrow k]
      exact h k hk
  have hdiff : ∀ k s f : Nat, 1 ≤ s → 1 ≤ f → diffAt t1 k s f = diffAt t2 k s f := by
    intro k s f hs hf
    unfold diffAt
    rw [hcell k s hs, hcell k f hf]
  have htrip : matchTriples t1 energy delta = matchTriples t2 energy delta := by
    unfold matchTriples
    rw [show scanCandidates (kptsOf t2) (bandsOf t2) = scanCandidates (kptsOf t1) (bandsOf t1) by
      rw [hkpts, hbands]]
    apply List.filter_congr
    rintro ⟨k, s, f⟩ hc
    rw [mem_scanCandidates] at hc
    rw [hdiff k s f (by omega) (by omega)]
  have houtput : transitionsOutput t1 energy delta gnuplot =
      transitionsOutput t2 energy delta gnuplot := by
    unfold transitionsOutput
    rw [htrip]
    apply congrArg String.join
    apply List.map_congr_left
    rintro ⟨k, s, f⟩ hc
    have hb := (mem_matchTriples.mp hc).1
    rw [mem_scanCandidates] at hb
    unfold renderLine
    cases gnuplot
    · simp only [Bool.false_eq_true, if_false]
      rw [hdiff k s f (by omega) (by omega)]
    · simp only [if_true]
      rw [hcell k s (by omega), hcell k f (by omega)]
  have hcond : (2 ≤ t1.length ∧ 2 ≤ bandsOf t1 ∧ rectangular t1) ↔
      (2 ≤ t2.length ∧ 2 ≤ bandsOf t2 ∧ rectangular t2) := by
    rw [hlen, hbands]
    exact and_congr Iff.rfl (and_congr Iff.rfl hrect)
  unfold transitionsRun loadTable
  by_cases h : 2 ≤ t1.length ∧ 2 ≤ bandsOf t1 ∧ rectangular t1
  · rw [if_pos h, if_pos (hcond.mp h)]
    exact congrArg some houtput
  · rw [if_neg h, if_neg (fun hh => h (hcond.mpr hh))]

/-- C9 witness: two 2x3 tables that differ exactly in column 0. -/
theorem scanner_ignores_column_zero_witness :
    transitionsRun [[0, 1, 5/2], [4, 1, 5/2]] (3/2) (1/1000) false =
      transitionsRun [[9, 1, 5/2], [7, 1, 5/2]] (3/2) (1/1000) false := by
  apply scanner_ignores_column_zero
  · rfl
  · intro k
    rcases k with _ | _ | k
    · rfl
    · rfl
    · rfl
  · intro k j hj
    rcases k with _ | _ | k
    · rcases j with _ | _ | _ | j
      · omega
      · rfl
      · rfl
      · rfl
    · rcases j with _ | _ | _ | j
      · omega
      · rfl
      · rfl
      · rfl
    · rfl

def emptyOut : String := ""

/-- C10: a negative delta is not an error: the acceptance window is empty, no
candidate matches, and a run on any loadable table still writes its output
file, with empty content. -/
theorem scanner_negative_delta (rows eigen : Table) (energy delta : ℚ) (gnuplot : Bool)
    (hd : delta < 0) (hl : loadTable rows = some eigen) :
    matchTriples eigen energy delta = [] ∧
    transitionsRun rows energy delta gnuplot = some emptyOut := by
  have hm : matchTriples eigen energy delta = [] := by
    unfold matchTriples
    rw [List.filter_eq_nil_iff]
    intro c _
    simp only [matchTest, Bool.and_eq_true, decide_eq_true_eq]
    rintro ⟨hc1, hc2⟩
    linarith
  refine ⟨hm, ?_⟩
  unfold transitionsRun
  rw [hl]
  show some (transitionsOutput eigen energy delta gnuplot) = some emptyOut
  unfold transitionsOutput
  rw [hm]
  rfl

/-- C10 witness: the table [[0, 1], [2, 3]] with delta -1. -/
theorem scanner_negative_delta_witness :
    matchTriples [[0, 1], [2, 3]] 1 (-1) = [] ∧
    transitionsRun [[0, 1], [2, 3]] 1 (-1) false = some emptyOut :=
  scanner_negative_delta [[0, 1], [2, 3]] [[0, 1], [2, 3]] 1 (-1) false
    (by norm_num) (by decide)

end PyNergy

namespace PyNergy

-- ## Reformatter lemmas

lemma splitNl_ne_nil (t : List Char) : splitNl t ≠ [] := by
  induction t with
  | nil => simp [splitNl]
  | cons c t ih =>
    simp only [splitNl]
    split
    · simp
    · split
      · simp
      · simp

lemma splitNl_nl_cons (t : List Char) : splitNl ('\n' :: t) = [] :: splitNl t := rfl

lemma splitNl_cons_ne {c : Char} (t : List Char) (hc : ¬ c = '\n') {hd : List Char}
    {r : List (List Char)} (hsp : splitNl t = hd :: r) :
    splitNl (c :: t) = (c :: hd) :: r := by
  simp only [splitNl, if_neg hc, hsp]

lemma mem_splitNl_no_nl {t l : List Char} (h : l ∈ splitNl t) : '\n' ∉ l := by
  induction t using splitNl.induct generalizing l with
  | case1 =>
    simp only [splitNl, List.mem_singleton] at h
    simp [h]
  | case2 t ih =>
    rw [splitNl_nl_cons] at h
    rcases List.mem_cons.mp h with rfl | h
    · simp
    · exact ih h
  | case3 c t hc hnil ih =>
    exact absurd hnil (splitNl_ne_nil t)
  | case4 c t hc hd r hsp ih =>
    rw [splitNl_cons_ne t hc hsp] at h
    rcases List.mem_cons.mp h with rfl | h
    · intro hm
      rcases List.mem_cons.mp hm with rfl | hm
      · exact hc rfl
      · exact ih (by rw [hsp]; exact List.mem_cons_self hd r) hm
    · exact ih (by rw [hsp]; exact List.mem_cons_of_mem hd h)

lemma splitNl_length (t : List Char) : (splitNl t).length = t.count '\n' + 1 := by
  induction t using splitNl.induct with
  | case1 => rfl
  | case2 t ih =>
    rw [splitNl_nl_cons, List.length_cons, ih, List.count_cons]
    simp
  | case3 c t hc hnil ih =>
    exact absurd hnil (splitNl_ne_nil t)
  | case4 c t hc hd r hsp ih =>
    rw [splitNl_cons_ne t hc hsp, List.length_cons]
    rw [hsp, List.length_cons] at ih
    rw [List.count_cons, if_neg (by simp [hc])]
    omega

lemma afterLastParen_subset (l : List Char) : afterLastParen l ⊆ l := by
  intro x hx
  unfold afterLastParen at hx
  rw [List.mem_reverse] at hx
  have h2 := List.takeWhile_subset (l := l.reverse) (fun c => c ≠ ')') hx
  rwa [List.mem_reverse] at h2

lemma paren_not_mem_afterLastParen (l : List Char) : ')' ∉ afterLastParen l := by
  intro hx
  unfold afterLastParen at hx
  rw [List.mem_reverse] at hx
  have h2 := List.mem_takeWhile_imp hx
  simp at h2

lemma lineStrip_subset (l : List Char) : lineStrip l ⊆ l := by
  induction l using lineStrip.induct with
  | case1 => simp [lineStrip]
  | case2 t hp =>
    simp only [lineStrip, if_pos rfl, if_pos hp]
    exact fun x hx => List.mem_cons_of_mem _ (afterLastParen_subset t hx)
  | case3 t hp =>
    simp only [lineStrip, if_pos rfl, if_neg hp]
    exact fun x hx => hx
  | case4 c t hc ih =>
    simp only [lineStrip, if_neg hc]
    intro x hx
    rcases List.mem_cons.mp hx with rfl | hx
    · exact List.mem_cons_self _ _
    · exact List.mem_cons_of_mem _ (ih hx)

lemma contains_eq_false_of_not_mem {l : List Char} {a : Char} (h : a ∉ l) :
    l.contains a = false := by
  simp [List.contains, List.elem_eq_mem, h]

lemma hasCommaParen_lineStrip (l : List Char) : hasCommaParen (lineStrip l) = false := by
  induction l using lineStrip.induct with
  | case1 => rfl
  | case2 t hp =>
    have he : lineStrip (',' :: t) = afterLastParen t := by
      simp only [lineStrip, if_pos rfl, if_pos hp]
      simp
    rw [he]
    unfold hasCommaParen
    apply contains_eq_false_of_not_mem
    intro hx
    exact paren_not_mem_afterLastParen t (List.dropWhile_subset _ hx)
  | case3 t hp =>
    have he : lineStrip (',' :: t) = ',' :: t := by
      simp only [lineStrip, if_pos rfl, if_neg hp]
      simp
    rw [he]
    unfold hasCommaParen
    rw [List.dropWhile_cons, if_neg (by simp)]
    apply contains_eq_false_of_not_mem
    intro hx
    rcases List.mem_cons.mp hx with hx | hx
    · exact absurd hx (by decide)
    · exact hp hx
  | case4 c t hc ih =>
    have he : lineStrip (c :: t) = c :: lineStrip t := by
      simp only [lineStrip, if_neg hc]
    rw [he]
    unfold hasCommaParen
    rw [List.dropWhile_cons, if_pos (by simp [hc])]
    exact ih

lemma splitNl_no_nl {l : List Char} (h : '\n' ∉ l) : splitNl l = [l] := by
  induction l with
  | nil => rfl
  | cons c t ih =>
    have hc : ¬ (c = '\n') := fun hm => h (hm ▸ List.mem_cons_self c t)
    have ht : '\n' ∉ t := fun hm => h (List.mem_cons_of_mem c hm)
    simp only [splitNl, if_neg hc, ih ht]

lemma splitNl_append_nl {l : List Char} (r : List Char) (h : '\n' ∉ l) :
    splitNl (l ++ '\n' :: r) = l :: splitNl r := by
  induction l with
  | nil => simp [splitNl]
  | cons c t ih =>
    have hc : ¬ (c = '\n') := fun hm => h (hm ▸ List.mem_cons_self c t)
    have ht : '\n' ∉ t := fun hm => h (List.mem_cons_of_mem c hm)
    rw [List.cons_append, splitNl_cons_ne _ hc (ih ht)]

lemma splitNl_joinNl {ls : List (List Char)} (h : ∀ l ∈ ls, '\n' ∉ l) (hne : ls ≠ []) :
    splitNl (joinNl ls) = ls := by
  induction ls using joinNl.induct with
  | case1 => exact absurd rfl hne
  | case2 l =>
    simp only [joinNl]
    exact splitNl_no_nl (h l (List.mem_singleton_self l))
  | case3 l ls hnil ih =>
    rcases ls with _ | ⟨a, ls⟩
    · exact absurd rfl (fun hh => hnil hh)
    · simp only [joinNl]
      rw [splitNl_append_nl _ (h l (List.mem_cons_self _ _))]
      rw [ih (fun x hx => h x (List.mem_cons_of_mem _ hx)) (by simp)]

lemma splitNl_stripAnnot (t : List Char) :
    splitNl (stripAnnot t) = (splitNl t).map lineStrip := by
  unfold stripAnnot
  apply splitNl_joinNl
  · intro l hl
    rw [List.mem_map] at hl
    obtain ⟨x, hx, rfl⟩ := hl
    intro hmem
    exact mem_splitNl_no_nl hx (lineStrip_subset x hmem)
  · intro hmap
    rw [List.map_eq_nil_iff] at hmap
    exact splitNl_ne_nil t hmap

lemma no_nl_stripNewlines (raw : List Char) : '\n' ∉ stripNewlines raw := by
  intro h
  unfold stripNewlines at h
  rw [List.mem_filter] at h
  simp at h

lemma count_nl_replaceMarker {v : List Char} (h : '\n' ∉ v) :
    (replaceMarker v).count '\n' = countMarker v := by
  induction v using replaceMarker.induct with
  | case1 t ih =>
    have ht : '\n' ∉ t := fun hm => h (by simp [hm])
    simp [replaceMarker, countMarker, List.count_cons, ih ht]
  | case2 c t hne ih =>
    have ht : '\n' ∉ t := fun hm => h (by simp [hm])
    have hc : c ≠ '\n' := fun hm => h (by simp [hm])
    rw [replaceMarker.eq_2 _ _ hne]
    simp [countMarker, List.count_cons, ih ht, hc]
  | case3 => rfl

lemma eigenLines_eq (raw : List Char) :
    eigenLines raw = ((splitNl (replaceMarker (stripNewlines raw))).map lineStrip).drop 1 := by
  unfold eigenLines
  rw [splitNl_stripAnnot]

lemma eigenLines_length (raw : List Char) :
    (eigenLines raw).length = countMarker (stripNewlines raw) := by
  rw [eigenLines_eq, List.length_drop, List.length_map, splitNl_length,
    count_nl_replaceMarker (no_nl_stripNewlines raw)]
  omega

end PyNergy

namespace PyNergy

-- ## C7 and C8

lemma takeWhile_ne_paren (xs ys : List Char) (hx : ')' ∉ xs) :
    (xs ++ ')' :: ys).takeWhile (fun c => c ≠ ')') = xs := by
  induction xs with
  | nil => simp [List.takeWhile_cons]
  | cons a xs ih =>
    have ha : a ≠ ')' := fun h => hx (h ▸ List.mem_cons_self a xs)
    have hxs : ')' ∉ xs := fun h => hx (List.mem_cons_of_mem a h)
    rw [List.cons_append, List.takeWhile_cons, if_pos (by simp [ha]), ih hxs]

lemma afterLastParen_append (b c : List Char) (hc : ')' ∉ c) :
    afterLastParen (b ++ ')' :: c) = c := by
  unfold afterLastParen
  rw [List.reverse_append, List.reverse_cons, List.append_assoc]
  rw [List.singleton_append, takeWhile_ne_paren _ _ (by simp [hc])]
  exact List.reverse_reverse c

lemma lineStrip_greedy (a b c : List Char) (ha : ',' ∉ a) (hc : ')' ∉ c) :
    lineStrip (a ++ (',' :: (b ++ (')' :: c)))) = a ++ c := by
  induction a with
  | nil =>
    have hp : ')' ∈ b ++ (')' :: c) := by simp
    simp only [List.nil_append]
    have he : lineStrip (',' :: (b ++ (')' :: c))) = afterLastParen (b ++ (')' :: c)) := by
      simp only [lineStrip, if_pos rfl, if_pos hp]
      simp
    rw [he, afterLastParen_append b c hc]
  | cons a0 a ih =>
    have ha0 : ¬ (a0 = ',') := fun h => ha (h ▸ List.mem_cons_self a0 a)
    have ha' : ',' ∉ a := fun h => ha (List.mem_cons_of_mem a0 h)
    have he : lineStrip (a0 :: (a ++ (',' :: (b ++ (')' :: c))))) =
        a0 :: lineStrip (a ++ (',' :: (b ++ (')' :: c)))) := by
      simp only [lineStrip, if_neg ha0]
    rw [List.cons_append, he, ih ha', List.cons_append]

def annotLineC7 : List Char := (r"1.0,a) 2.0,b) 3.0").data
def strippedC7 : List Char := (r"1.0 3.0").data
def specStrippedC7 : List Char := (r"1.0 2.0 3.0").data

/-- C7 counterexample: on the single record line `1.0,a) 2.0,b) 3.0`, which
carries two comma-parenthesis annotated values with the energy `2.0` between
them, the stripping step `re.sub(r',.*\)', "", text)` produces `1.0 3.0`:
the energy value between the two annotations is NOT preserved, refuting the
claim that each occurrence is removed individually. -/
theorem reformatter_strip_cex :
    stripAnnot annotLineC7 = strippedC7 ∧ strippedC7 ≠ specStrippedC7 := by
  refine ⟨by decide, by decide⟩

/-- C7 amended: the `.*` in the pattern is greedy and a match cannot span a
newline, so on each newline-free segment a single substitution removes
everything from the first comma (when a ')' follows it) through the last
closing parenthesis of the segment: for any segment a ++ ',' :: b ++ ')' :: c
with no comma in a and no ')' in c, the result is a ++ c — anything between
the first annotation's comma and the last annotation's parenthesis, energy
values included, is removed. -/
theorem reformatter_strip_greedy (a b c : List Char)
    (ha : ',' ∉ a) (hc : ')' ∉ c)
    (hna : '\n' ∉ a) (hnb : '\n' ∉ b) (hnc : '\n' ∉ c) :
    stripAnnot (a ++ (',' :: (b ++ (')' :: c)))) = a ++ c := by
  have hnl : '\n' ∉ (a ++ (',' :: (b ++ (')' :: c)))) := by
    intro h
    rcases List.mem_append.mp h with h | h
    · exact hna h
    · rcases List.mem_cons.mp h with h | h
      · exact absurd h (by decide)
      · rcases List.mem_append.mp h with h | h
        · exact hnb h
        · rcases List.mem_cons.mp h with h | h
          · exact absurd h (by decide)
          · exact hnc h
  unfold stripAnnot
  rw [splitNl_no_nl hnl]
  show joinNl [lineStrip (a ++ (',' :: (b ++ (')' :: c))))] = a ++ c
  rw [lineStrip_greedy a b c ha hc]
  rfl

/-- C7 witness: the segment of the counterexample, decomposed around its
first comma and last parenthesis. -/
theorem reformatter_strip_greedy_witness :
    stripAnnot ((r"1.0").data ++ (',' :: ((r"a) 2.0,b").data ++ (')' :: (r" 3.0").data)))) =
      (r"1.0").data ++ (r" 3.0").data :=
  reformatter_strip_greedy ((r"1.0").data) ((r"a) 2.0,b").data) ((r" 3.0").data)
    (by decide) (by decide) (by decide) (by decide) (by decide)

def rawC8 : List Char := (r"kpt#akp").data ++ ('\n' :: (r"t#b").data)

/-- C8 counterexample: the raw text `kpt#akp\nt#b` contains exactly one
occurrence of the marker `kpt#`, yet the reformatter's output is `a\nb` —
two lines, not one: removing the newlines first welds `kp` + `t#` into a
second marker occurrence, so the line count follows the newline-collapsed
text, not the raw text. -/
theorem reformatter_line_count_cex :
    countMarker rawC8 = 1 ∧ eigenformat rawC8 = 'a' :: '\n' :: 'b' :: [] ∧
    (splitNl (eigenformat rawC8)).length = 2 := by
  refine ⟨by decide, by decide, by decide⟩

/-- C8 amended: for any raw text, the reformatter's output consists of
exactly N lines joined by newlines, where N is the number of marker
occurrences in the newline-collapsed text (the preamble line is always
dropped); no output line contains a comma followed later by a closing
parenthesis; and when N = 0 the output content is empty (not an error). -/
theorem reformatter_output_lines (raw : List Char) :
    (eigenLines raw).length = countMarker (stripNewlines raw) ∧
    (∀ l ∈ eigenLines raw, hasCommaParen l = false) ∧
    eigenformat raw = joinNl (eigenLines raw) ∧
    (countMarker (stripNewlines raw) = 0 → eigenformat raw = []) := by
  refine ⟨eigenLines_length raw, ?_, rfl, ?_⟩
  · intro l hl
    rw [eigenLines_eq] at hl
    have hm := List.mem_of_mem_drop hl
    rw [List.mem_map] at hm
    obtain ⟨x, _, rfl⟩ := hm
    exact hasCommaParen_lineStrip x
  · intro h0
    have hlen : (eigenLines raw).length = 0 := by rw [eigenLines_length, h0]
    have hnil : eigenLines raw = [] := List.length_eq_zero.mp hlen
    rw [eigenformat, hnil]
    rfl

/-- C8 witness: marker-free raw input yields empty output content. -/
theorem reformatter_output_lines_witness :
    eigenformat ((r"hello world").data) = [] :=
  (reformatter_output_lines ((r"hello world").data)).2.2.2 (by decide)

end PyNergy
